import Mathlib

/-!
# Verification of the minesweeper board engine (`game.go`, `main.go`)

This file gives a shallow embedding of the board-state engine of the
minesweeper repository: the cell grid, deferred mine placement
(`initializeGridSafely`), the flood-fill reveal (`revealCell`), win
detection (`checkWin`), `revealAllMines`, `calculateNeighbors`, and the
per-frame `Update` state machine, and proves properties about them.

Modelling conventions:
* Go machine integers are modelled as `Int` (coordinates can be negative,
  e.g. the `-1, -1` arguments of `initializeGridSafely`), sizes as `Nat`.
* The grid `[][]Cell` is a `List (List Cell)`, indexed `grid[y][x]`.
* A Go slice access `g.grid[y][x]` that is executed only after an
  in-bounds guard is modelled by total access with a default cell
  (`cellAt`); theorems about those paths carry a well-formedness
  hypothesis saying the lists really have the configured dimensions.
  The two direct accesses performed by the click handlers in `Update`
  are modelled by checked access (`cellAt?`), so that `Update` returns
  `Option GameState` and `none` models a Go runtime panic
  (index out of range) or a non-returning placement loop.
* `rand.Intn` draws are modelled by an explicit stream of proposed
  coordinates (`List (Nat × Nat)`); the unbounded `for` loop of the mine
  placement returns `none` when the stream is exhausted before
  `mineCount` mines are placed.
* The unbounded recursion of `revealCell` is modelled with explicit fuel
  (`revealCellFuel`); `revealCell` runs it with fuel
  `unrevealedCountG grid + 1`, and the stabilisation theorem below shows
  any larger fuel gives the same result, i.e. the recursion terminates.
* Rendering, sounds, fonts, the wall-clock timer fields
  (`startTime`/`elapsedTime`) and button hover state are peripheral I/O
  and are not part of the model; no claim refers to them.
-/

/-- List update at an index, leaving the list unchanged when the index is
out of range (the semantics of the guarded in-place updates of the Go code). -/
def modifyList {α : Type} (l : List α) (n : Nat) (f : α → α) : List α :=
  match l, n with
  | [], _ => []
  | a :: t, 0 => f a :: t
  | a :: t, Nat.succ m => a :: modifyList t m f

theorem length_modifyList {α : Type} (l : List α) (n : Nat) (f : α → α) :
    (modifyList l n f).length = l.length := by
  induction l generalizing n with
  | nil => rfl
  | cons a t ih =>
    cases n with
    | zero => rfl
    | succ m => simp [modifyList, ih]

theorem getD_modifyList_eq {α : Type} (l : List α) (n : Nat) (f : α → α) (d : α)
    (h : n < l.length) : (modifyList l n f).getD n d = f (l.getD n d) := by
  induction l generalizing n with
  | nil => simp at h
  | cons a t ih =>
    cases n with
    | zero => rfl
    | succ m =>
      simp only [modifyList, List.getD_cons_succ]
      exact ih m (by simpa using h)

theorem getD_modifyList_ne {α : Type} (l : List α) (n m : Nat) (f : α → α) (d : α)
    (h : n ≠ m) : (modifyList l n f).getD m d = l.getD m d := by
  induction l generalizing n m with
  | nil => rfl
  | cons a t ih =>
    cases n with
    | zero =>
      cases m with
      | zero => exact absurd rfl h
      | succ k => rfl
    | succ n' =>
      cases m with
      | zero => rfl
      | succ k =>
        simp only [modifyList, List.getD_cons_succ]
        exact ih n' k (fun hc => h (by rw [hc]))

theorem getD_mem {α : Type} (l : List α) (n : Nat) (d : α) (h : n < l.length) :
    l.getD n d ∈ l := by
  induction l generalizing n with
  | nil => simp at h
  | cons a t ih =>
    cases n with
    | zero => simp [List.getD_cons_zero]
    | succ m =>
      simp only [List.getD_cons_succ]
      exact List.mem_cons_of_mem _ (ih m (by simpa using h))

/-- Map with the element index, used to model the `for y ... for x ...`
loops that rebuild cell fields in place. -/
def mapIdxFrom {α β : Type} (f : Nat → α → β) : Nat → List α → List β
  | _, [] => []
  | i, a :: t => f i a :: mapIdxFrom f (i + 1) t

def mapWithIdx {α β : Type} (f : Nat → α → β) (l : List α) : List β :=
  mapIdxFrom f 0 l

theorem length_mapIdxFrom {α β : Type} (f : Nat → α → β) (i : Nat) (l : List α) :
    (mapIdxFrom f i l).length = l.length := by
  induction l generalizing i with
  | nil => rfl
  | cons a t ih => simp [mapIdxFrom, ih]

theorem length_mapWithIdx {α β : Type} (f : Nat → α → β) (l : List α) :
    (mapWithIdx f l).length = l.length := length_mapIdxFrom f 0 l

theorem getD_mapIdxFrom {α β : Type} (f : Nat → α → β) (i n : Nat) (l : List α)
    (d : β) (d' : α) (h : n < l.length) :
    (mapIdxFrom f i l).getD n d = f (i + n) (l.getD n d') := by
  induction l generalizing i n with
  | nil => simp at h
  | cons a t ih =>
    cases n with
    | zero => simp [mapIdxFrom]
    | succ m =>
      simp only [mapIdxFrom, List.getD_cons_succ]
      rw [ih (i + 1) m (by simpa using h)]
      congr 1
      omega

theorem getD_mapWithIdx {α β : Type} (f : Nat → α → β) (n : Nat) (l : List α)
    (d : β) (d' : α) (h : n < l.length) :
    (mapWithIdx f l).getD n d = f n (l.getD n d') := by
  simpa using getD_mapIdxFrom f 0 n l d d' h

/-! ## Data model (`Cell`, `Difficulty`, the grid) -/

/-- The per-position record of `game.go`: `hasMine`, `revealed`, `flagged`,
`neighbors` (the stored neighbouring-mine count). -/
structure Cell where
  hasMine : Bool
  revealed : Bool
  flagged : Bool
  neighbors : Nat
deriving DecidableEq

/-- The zero value `Cell{}` of Go. -/
def Cell.empty : Cell := ⟨false, false, false, 0⟩

instance : Inhabited Cell := ⟨Cell.empty⟩

inductive Difficulty where
  | easy
  | medium
  | hard
deriving DecidableEq

/-- The `DifficultyConfig` record. -/
structure Config where
  gridWidth : Nat
  gridHeight : Nat
  mineCount : Nat
deriving DecidableEq

/-- The `difficultySettings` map: Easy 9×9/10, Medium 16×16/40, Hard 30×16/99. -/
def difficultySettings : Difficulty → Config
  | .easy => ⟨9, 9, 10⟩
  | .medium => ⟨16, 16, 40⟩
  | .hard => ⟨30, 16, 99⟩

/-- The global constants of `main.go` (`gridWidth = 16`, `gridHeight = 16`),
used — instead of the active difficulty's dimensions — by the bounds check
of the right-click (flag) handler in `Update`. -/
def mainGridWidth : Nat := 16

def mainGridHeight : Nat := 16

abbrev Grid := List (List Cell)

/-- Bounds check against a difficulty configuration, as written in the Go
guards `x >= 0 && x < config.GridWidth && y >= 0 && y < config.GridHeight`. -/
def inBP (c : Config) (x y : Int) : Prop :=
  0 ≤ x ∧ x < (c.gridWidth : Int) ∧ 0 ≤ y ∧ y < (c.gridHeight : Int)

instance (c : Config) (x y : Int) : Decidable (inBP c x y) := by
  unfold inBP; infer_instance

/-- Total grid access `grid[y][x]` with a default `Cell{}` out of range.
Used on paths where the Go access is protected by an in-bounds guard. -/
def cellAt (g : Grid) (x y : Int) : Cell :=
  if 0 ≤ x ∧ 0 ≤ y then (g.getD y.toNat []).getD x.toNat Cell.empty
  else Cell.empty

/-- Checked grid access `grid[y][x]`; `none` models the Go runtime panic
`index out of range`. Used for the direct accesses of the click handlers. -/
def cellAt? (g : Grid) (x y : Int) : Option Cell :=
  if 0 ≤ x ∧ 0 ≤ y then
    match g.get? y.toNat with
    | none => none
    | some row => row.get? x.toNat
  else none

/-- Well-formedness: the grid lists have exactly the configured dimensions
(`NewGame` allocates `GridHeight` rows of `GridWidth` cells). -/
def WFgrid (c : Config) (g : Grid) : Prop :=
  g.length = c.gridHeight ∧ ∀ i, i < g.length → (g.getD i []).length = c.gridWidth

/-- Executable form of `WFgrid` for concrete witnesses. -/
def WFb (c : Config) (g : Grid) : Bool :=
  g.length == c.gridHeight && g.all (fun row => row.length == c.gridWidth)

theorem getD_eq_get {α : Type} (l : List α) (n : Nat) (d : α) (h : n < l.length) :
    l.getD n d = l.get ⟨n, h⟩ := by
  induction l generalizing n with
  | nil => simp at h
  | cons a t ih =>
    cases n with
    | zero => rfl
    | succ m => simpa using ih m (by simpa using h)

theorem WFb_iff (c : Config) (g : Grid) : WFb c g = true ↔ WFgrid c g := by
  unfold WFb WFgrid
  simp only [Bool.and_eq_true, beq_iff_eq, List.all_eq_true]
  constructor
  · rintro ⟨h1, h2⟩
    exact ⟨h1, fun i hi => h2 _ (getD_mem g i [] hi)⟩
  · rintro ⟨h1, h2⟩
    refine ⟨h1, fun row hrow => ?_⟩
    obtain ⟨i, hget⟩ := List.mem_iff_get.mp hrow
    have := h2 i.1 (by omega)
    rw [getD_eq_get g i.1 [] (by omega)] at this
    rw [← hget]
    simpa using this

/-- The fresh all-zero grid allocated by `NewGame`. -/
def freshGrid (c : Config) : Grid :=
  List.replicate c.gridHeight (List.replicate c.gridWidth Cell.empty)

/-! ## Board operations from `game.go` -/

/-- The neighbour offsets enumerated by the nested loops
`for dy := -1; dy <= 1 ... for dx := -1; dx <= 1 ...`, as `(dx, dy)` pairs
in iteration order. Note the list contains `(0, 0)`: the Go loops do not
skip the centre. -/
def offsets9 : List (Int × Int) :=
  [(-1, -1), (0, -1), (1, -1), (-1, 0), (0, 0), (1, 0), (-1, 1), (0, 1), (1, 1)]

/-- The 8 proper Chebyshev-adjacent directions (the claim's adjacency). -/
def offsets8 : List (Int × Int) :=
  [(-1, -1), (0, -1), (1, -1), (-1, 0), (1, 0), (-1, 1), (0, 1), (1, 1)]

/-- The count computed by the inner loops of `calculateNeighbors`: mines
among the in-bounds cells of the 3×3 block centred at `(x, y)` (the centre
offset is included by the Go loops, exactly as in the source). -/
def mineNeighborCount (c : Config) (g : Grid) (x y : Int) : Nat :=
  (offsets9.filter (fun d =>
    decide (inBP c (x + d.1) (y + d.2)) && (cellAt g (x + d.1) (y + d.2)).hasMine)).length

/-- `calculateNeighbors`: for every non-mine cell inside the configured
bounds, store the neighbouring-mine count; mine cells keep their field.
The loop only reads `hasMine` (never written by it), so the in-place loop
equals this simultaneous rebuild. -/
def calculateNeighbors (c : Config) (g : Grid) : Grid :=
  mapWithIdx (fun y row =>
    mapWithIdx (fun x cell =>
      if x < c.gridWidth ∧ y < c.gridHeight ∧ cell.hasMine = false then
        { cell with neighbors := mineNeighborCount c g (x : Int) (y : Int) }
      else cell) row) g

/-- `revealAllMines`: set `revealed` on every mine cell inside the
configured bounds. -/
def revealAllMines (c : Config) (g : Grid) : Grid :=
  mapWithIdx (fun y row =>
    mapWithIdx (fun x cell =>
      if x < c.gridWidth ∧ y < c.gridHeight ∧ cell.hasMine = true then
        { cell with revealed := true }
      else cell) row) g

/-- The body of `checkWin`'s scan: `won` stays `true` iff no cell is
`(!hasMine && !revealed) || (hasMine && !flagged && !revealed)`. -/
def checkWinFlag (c : Config) (g : Grid) : Bool :=
  (List.range c.gridHeight).all (fun y =>
    (List.range c.gridWidth).all (fun x =>
      let cell := cellAt g (x : Int) (y : Int)
      !((!cell.hasMine && !cell.revealed) ||
        (cell.hasMine && !cell.flagged && !cell.revealed))))

/-- `grid[y][x].revealed = true` (no-op when the index misses the lists;
all call sites are guarded and reach existing cells on well-formed grids). -/
def setRevealed (g : Grid) (x y : Int) : Grid :=
  modifyList g y.toNat (fun row =>
    modifyList row x.toNat (fun cell => { cell with revealed := true }))

/-- Number of unrevealed cells held by the grid lists; the termination
measure of the flood fill. -/
def unrevealedCountG (g : Grid) : Nat :=
  (g.map (fun row => row.countP (fun cell => !cell.revealed))).sum

/-- Fuel-indexed version of the recursive `revealCell`: bounds check
against the active config, no-op on revealed or flagged cells, reveal,
and on a zero count recurse over all nine offsets (including `(0,0)`)
in the Go iteration order. The Go code reads `cell.neighbors` through a
pointer after setting `revealed`; `revealed = true` does not change
`neighbors`, so reading the pre-update cell is the same. -/
def revealCellFuel (c : Config) : Nat → Grid → Int → Int → Grid
  | 0, g, _, _ => g
  | fuel + 1, g, x, y =>
    if inBP c x y then
      let cell := cellAt g x y
      if cell.revealed = true ∨ cell.flagged = true then g
      else
        let g1 := setRevealed g x y
        if cell.neighbors = 0 then
          offsets9.foldl (fun acc d => revealCellFuel c fuel acc (x + d.1) (y + d.2)) g1
        else g1
    else g

/-- `revealCell`, run with enough fuel for the recursion to complete
(the stabilisation theorem below proves this fuel always suffices). -/
def revealCell (c : Config) (g : Grid) (x y : Int) : Grid :=
  revealCellFuel c (unrevealedCountG g + 1) g x y

/-- The `safeZone` set built by `initializeGridSafely`: the in-bounds
cells of the 3×3 block centred on the first click. -/
def safeZone (c : Config) (fx fy : Int) : List (Int × Int) :=
  offsets9.filterMap (fun d =>
    let nx := fx + d.1
    let ny := fy + d.2
    if inBP c nx ny then some (nx, ny) else none)

/-- `grid[y][x].hasMine = true`. -/
def setMine (g : Grid) (x y : Nat) : Grid :=
  modifyList g y (fun row => modifyList row x (fun cell => { cell with hasMine := true }))

/-- The `for minesPlaced < config.MineCount` placement loop. `proposals`
models the successive `rand.Intn(W), rand.Intn(H)` draws (always in range
in Go); a draw on a cell that already has a mine or lies in the safe zone
is retried. `none` models the loop still running when the stream ends. -/
def placeMinesLoop (sz : List (Int × Int)) :
    List (Nat × Nat) → Grid → Nat → Option Grid
  | _, g, 0 => some g
  | [], _, Nat.succ _ => none
  | (px, py) :: rest, g, Nat.succ need =>
    if (cellAt g (px : Int) (py : Int)).hasMine = false ∧
        ((px : Int), (py : Int)) ∉ sz then
      placeMinesLoop sz rest (setMine g px py) need
    else
      placeMinesLoop sz rest g (Nat.succ need)

/-- `initializeGridSafely(firstX, firstY)`: build the safe zone, place
`config.MineCount` additional mines avoiding existing mines and the zone,
then run `calculateNeighbors`. Note it does not clear existing mines. -/
def initGridSafely (c : Config) (g : Grid) (fx fy : Int)
    (proposals : List (Nat × Nat)) : Option Grid :=
  (placeMinesLoop (safeZone c fx fy) proposals g c.mineCount).map (calculateNeighbors c)

/-- Number of mine cells held by the grid lists. -/
def mineCountG (g : Grid) : Nat :=
  (g.map (fun row => row.countP (fun cell => cell.hasMine))).sum

/-! ## The `Update` state machine -/

/-- The modelled fields of the `Game` struct (assets, sounds, fonts,
buttons and the timer are peripheral). -/
structure GameState where
  grid : Grid
  gameOver : Bool
  won : Bool
  difficulty : Difficulty
  firstClick : Bool
  showingDifficultyMenu : Bool
deriving DecidableEq

/-- One frame's worth of input, pre-classified by the screen region the
cursor is in (grid cells occupy pixels `[0, W·32) × [0, H·32)`; the
restart/difficulty buttons and the menu buttons live in disjoint regions,
and a click on no interesting region behaves like `idle`). -/
inductive Event where
  | idle
  | primaryAt (gx gy : Int)
  | secondaryAt (gx gy : Int)
  | restartBtn
  | difficultyBtn
  | menuSelect (d : Difficulty)
deriving DecidableEq

/-- `checkWin`: suppressed before the first click, otherwise recompute
`won` by the full-board scan. -/
def checkWin (s : GameState) : GameState :=
  if s.firstClick = true then s
  else { s with won := checkWinFlag (difficultySettings s.difficulty) s.grid }

/-- The left-click block of `Update` (lines 397–422): config-bounds
check, flag guard, deferred placement on the first click, then either the
mine hit (game over + reveal all mines) or the flood-fill reveal. -/
def handlePrimary (s : GameState) (gx gy : Int)
    (proposals : List (Nat × Nat)) : Option GameState :=
  let c := difficultySettings s.difficulty
  if inBP c gx gy then
    match cellAt? s.grid gx gy with
    | none => none
    | some cell =>
      if cell.flagged = false then
        (if s.firstClick = true then
          (initGridSafely c s.grid gx gy proposals).map (fun g' =>
            { s with firstClick := false, grid := g' })
         else some s).bind (fun t =>
          match cellAt? t.grid gx gy with
          | none => none
          | some cell2 =>
            if cell2.hasMine = true then
              some { t with gameOver := true, grid := revealAllMines c t.grid }
            else
              some { t with grid := revealCell c t.grid gx gy })
      else some s
  else some s

/-- `grid[y][x].flagged = !grid[y][x].flagged`. -/
def toggleAt (g : Grid) (gx gy : Int) : Grid :=
  modifyList g gy.toNat (fun row =>
    modifyList row gx.toNat (fun c => { c with flagged := !c.flagged }))

/-- The right-click block of `Update` (lines 424–435). The bounds check
uses the global constants `gridWidth`/`gridHeight` of `main.go` (16×16),
not the active difficulty's dimensions; the subsequent grid access is
checked, since for Easy it can really be out of range. -/
def handleSecondary (s : GameState) (gx gy : Int) : Option GameState :=
  if 0 ≤ gx ∧ gx < (mainGridWidth : Int) ∧ 0 ≤ gy ∧ gy < (mainGridHeight : Int) then
    match cellAt? s.grid gx gy with
    | none => none
    | some cell =>
      if cell.revealed = false then some { s with grid := toggleAt s.grid gx gy }
      else some s
  else some s

/-- The restart branch (lines 365–383): a fresh `NewGame` state is copied
over the live one (`firstClick` becomes `true` again), `gameOver`/`won`
are cleared, and `initializeGridSafely(-1, -1)` places mines immediately. -/
def restartGame (s : GameState) (proposals : List (Nat × Nat)) : Option GameState :=
  let c := difficultySettings s.difficulty
  (initGridSafely c (freshGrid c) (-1) (-1) proposals).map (fun g' =>
    { grid := g', gameOver := false, won := false, difficulty := s.difficulty,
      firstClick := true, showingDifficultyMenu := false })

/-- The difficulty-menu branch (lines 324–354): a fresh game at the chosen
difficulty, `firstClick` set to `false`, the grid cleared and
`initializeGridSafely(-1, -1)` run immediately. -/
def selectDifficulty (d : Difficulty) (proposals : List (Nat × Nat)) : Option GameState :=
  let c := difficultySettings d
  (initGridSafely c (freshGrid c) (-1) (-1) proposals).map (fun g' =>
    { grid := g', gameOver := false, won := false, difficulty := d,
      firstClick := false, showingDifficultyMenu := false })

/-- One call of `Game.Update` on one frame's input. Structure follows the
source: the difficulty-menu overlay consumes everything first; then the
terminal (`gameOver || won`) branch accepts only the two buttons; the main
path processes the click handlers, runs `checkWin`, and finally pops the
difficulty menu when `firstClick` is still set. -/
def update (s : GameState) (e : Event) (proposals : List (Nat × Nat)) :
    Option GameState :=
  if s.showingDifficultyMenu = true then
    match e with
    | .menuSelect d => selectDifficulty d proposals
    | _ => some s
  else if s.gameOver = true ∨ s.won = true then
    match e with
    | .restartBtn => restartGame s proposals
    | .difficultyBtn => some { s with showingDifficultyMenu := true }
    | _ => some s
  else
    (match e with
     | .primaryAt gx gy => handlePrimary s gx gy proposals
     | .secondaryAt gx gy => handleSecondary s gx gy
     | _ => some s).map (fun t =>
      let t2 := checkWin t
      if t2.firstClick = true ∧ t2.showingDifficultyMenu = false ∧
          t2.gameOver = false ∧ t2.won = false then
        { t2 with showingDifficultyMenu := true }
      else t2)

def mineCell : Cell := ⟨true, false, false, 0⟩
def mineFlaggedCell : Cell := ⟨true, false, true, 0⟩
def openCell : Cell := ⟨false, true, false, 0⟩

def gridC5 : Grid :=
  List.replicate 9 mineCell ::
  (mineCell :: List.replicate 8 openCell) ::
  List.replicate 7 (List.replicate 9 openCell)

def stateC5 : GameState := ⟨gridC5, false, false, .easy, false, false⟩

def gridC10 : Grid :=
  (mineCell :: List.replicate 8 mineFlaggedCell) ::
  (mineFlaggedCell :: List.replicate 8 openCell) ::
  List.replicate 7 (List.replicate 9 openCell)

def stateC10 : GameState := ⟨gridC10, false, false, .easy, false, false⟩

def stateC4 : GameState :=
  ⟨freshGrid (difficultySettings .easy), false, false, .easy, true, false⟩

def stateTerminalEasy : GameState :=
  ⟨freshGrid (difficultySettings .easy), true, false, .easy, false, false⟩

def streamRestart : List (Nat × Nat) :=
  [(5,5),(1,0),(2,0),(3,0),(4,0),(5,0),(6,0),(7,0),(8,0),(1,1)]

def streamFirstClick : List (Nat × Nat) :=
  [(0,0),(1,2),(2,2),(3,2),(8,8),(7,8),(6,8),(5,8),(4,8),(3,8)]

def traceC12 : Option GameState :=
  (update stateTerminalEasy .restartBtn streamRestart).bind
    (fun t => update t (.primaryAt 5 5) streamFirstClick)

/-- C1: after a restart request (which already runs
`initializeGridSafely(-1, -1)` and places all 10 mines while leaving
`firstClick = true`), a first reveal in the next frame triggers the
deferred placement again — but the clicked cell `(5,5)` still carries the
mine placed at restart, so the 3×3 safety guarantee fails and the click
even loses the game instantly. The restart step really is a first-reveal
situation: `firstClick` is `true` after it. -/
theorem firstClickNotSafeAfterRestart :
    (update stateTerminalEasy .restartBtn streamRestart).map
        (fun t => (t.firstClick, (cellAt t.grid 5 5).hasMine)) = some (true, true) ∧
    traceC12.map (fun t => ((cellAt t.grid 5 5).hasMine, t.gameOver)) =
      some (true, true) := by
  constructor
  · rfl
  · rfl

/-- C2: mine placement is not guarded against double invocation: the
restart branch places `mineCount = 10` mines but leaves
`firstClick = true`, so the first reveal of the restarted session places
10 more; the resulting board has 20 mines instead of `mineCount`. -/
theorem minePlacementRunsTwiceAfterRestart :
    (update stateTerminalEasy .restartBtn streamRestart).map
        (fun t => mineCountG t.grid) = some 10 ∧
    traceC12.map (fun t => mineCountG t.grid) = some 20 ∧
    (difficultySettings .easy).mineCount = 10 := by
  refine ⟨?_, ?_, rfl⟩
  · rfl
  · rfl

/-- C4: the flag handler's bounds check uses the 16×16 constants of
`main.go`, not the active difficulty's dimensions. On an Easy (9×9)
session, a right-click at grid cell `(10, 5)` passes that check and the
code indexes `g.grid[5][10]` on a 9-wide row: a runtime panic
(index out of range), modelled as `none` — not a silent no-op. -/
theorem flagToggleOutOfBoundsPanics :
    update stateC4 (.secondaryAt 10 5) [] = none ∧
    stateC4.gameOver = false ∧ stateC4.won = false ∧
    WFb (difficultySettings stateC4.difficulty) stateC4.grid = true ∧
    ¬ inBP (difficultySettings stateC4.difficulty) 10 5 := by
  refine ⟨rfl, rfl, rfl, by decide, by decide⟩

/-- C5: loss does not take precedence over win. In an Easy session where
every non-mine cell is already revealed, clicking an unflagged mine sets
`gameOver`, reveals all mines, and then `checkWin` — which still runs —
finds every mine revealed and sets `won` as well: both flags end up
`true`, and the rendering layer displays the win message. -/
theorem mineRevealAlsoSetsWon :
    (update stateC5 (.primaryAt 0 0) []).map (fun t => (t.gameOver, t.won)) =
      some (true, true) ∧
    (cellAt stateC5.grid 0 0).hasMine = true ∧
    stateC5.gameOver = false ∧ stateC5.won = false := by
  refine ⟨?_, rfl, rfl, rfl⟩
  rfl

/-- C10 counterexample: toggling a flag twice need not restore the board.
In `stateC10` every non-mine cell is revealed and nine of the ten mines
are flagged; flagging the last mine at `(0, 0)` makes `checkWin` set
`won`, so the session becomes terminal and the second toggle is rejected:
the cell stays flagged and the board differs from the original. -/
theorem flagToggleTwiceNotInvolutive :
    stateC10.gameOver = false ∧ stateC10.won = false ∧
    (cellAt stateC10.grid 0 0).revealed = false ∧
    (cellAt stateC10.grid 0 0).flagged = false ∧
    ((update stateC10 (.secondaryAt 0 0) []).bind
        (fun t => update t (.secondaryAt 0 0) [])).map (fun t => t.grid) ≠
      some stateC10.grid := by
  refine ⟨rfl, rfl, rfl, rfl, ?_⟩
  decide

/-! ## Win predicate and terminal-state lock -/

/-- The claim's per-cell winning condition: either (non-mine and revealed)
or (mine and (flagged or revealed)). -/
def winCellOk (cell : Cell) : Prop :=
  (cell.hasMine = false ∧ cell.revealed = true) ∨
  (cell.hasMine = true ∧ (cell.flagged = true ∨ cell.revealed = true))

theorem winCellOk_iff (cell : Cell) :
    (!((!cell.hasMine && !cell.revealed) ||
       (cell.hasMine && !cell.flagged && !cell.revealed))) = true ↔ winCellOk cell := by
  rcases cell with ⟨m, r, f, n⟩
  cases m <;> cases r <;> cases f <;> simp [winCellOk]

theorem checkWinFlag_iff (c : Config) (g : Grid) :
    checkWinFlag c g = true ↔
      ∀ x y : Nat, x < c.gridWidth → y < c.gridHeight →
        winCellOk (cellAt g (x : Int) (y : Int)) := by
  unfold checkWinFlag
  simp only [List.all_eq_true, List.mem_range]
  constructor
  · intro h x y hx hy
    exact (winCellOk_iff _).mp (h y hy x hx)
  · intro h y hy x hx
    exact (winCellOk_iff _).mpr (h x y hx hy)

/-- C3: `checkWin` reports a win iff every cell is either a revealed
non-mine or a mine that is flagged or revealed; and before the first
reveal (`firstClick` still `true`, hence `won` still `false`) it reports
no win whatever the board contents are. -/
theorem checkWin_spec (s : GameState) :
    (s.firstClick = false →
      ((checkWin s).won = true ↔
        ∀ x y : Nat, x < (difficultySettings s.difficulty).gridWidth →
          y < (difficultySettings s.difficulty).gridHeight →
          winCellOk (cellAt s.grid (x : Int) (y : Int)))) ∧
    (s.firstClick = true → s.won = false → (checkWin s).won = false) := by
  constructor
  · intro h
    simp only [checkWin, h]
    simpa using checkWinFlag_iff (difficultySettings s.difficulty) s.grid
  · intro h hw
    simp [checkWin, h, hw]

/-- A fully opened mine-free Easy board, on which the win predicate holds. -/
def stateAllOpen : GameState :=
  ⟨List.replicate 9 (List.replicate 9 openCell), false, false, .easy, false, false⟩

theorem checkWin_spec_witness :
    ((checkWin stateAllOpen).won = true ↔
      ∀ x y : Nat, x < (difficultySettings stateAllOpen.difficulty).gridWidth →
        y < (difficultySettings stateAllOpen.difficulty).gridHeight →
        winCellOk (cellAt stateAllOpen.grid (x : Int) (y : Int))) ∧
    (checkWin stateC4).won = false :=
  ⟨(checkWin_spec stateAllOpen).1 rfl, (checkWin_spec stateC4).2 rfl rfl⟩

/-- C9: in a terminal session (`gameOver` or `won`), a primary click at a
grid cell and a secondary click at a grid cell are both completely
ignored: the state — in particular every cell of the board — is
unchanged. (Only the restart button, the difficulty button and the
difficulty menu do anything in those states.) -/
theorem terminalStateLock (s : GameState) (gx gy : Int)
    (proposals : List (Nat × Nat)) (h : s.gameOver = true ∨ s.won = true) :
    update s (.primaryAt gx gy) proposals = some s ∧
    update s (.secondaryAt gx gy) proposals = some s := by
  by_cases hm : s.showingDifficultyMenu = true
  · simp [update, hm]
  · simp [update, hm, h]

theorem terminalStateLock_witness :
    (stateTerminalEasy.gameOver = true ∨ stateTerminalEasy.won = true) ∧
    update stateTerminalEasy (.primaryAt 3 4) [] = some stateTerminalEasy ∧
    update stateTerminalEasy (.secondaryAt 3 4) [] = some stateTerminalEasy :=
  ⟨Or.inl rfl, (terminalStateLock stateTerminalEasy 3 4 [] (Or.inl rfl)).1,
    (terminalStateLock stateTerminalEasy 3 4 [] (Or.inl rfl)).2⟩

/-! ## Neighbour count correctness -/

theorem cellAt_calculateNeighbors (c : Config) (g : Grid) (x y : Int)
    (hWF : WFgrid c g) (hin : inBP c x y) :
    cellAt (calculateNeighbors c g) x y =
      (if (cellAt g x y).hasMine = false then
        { cellAt g x y with neighbors := mineNeighborCount c g x y }
       else cellAt g x y) := by
  obtain ⟨hx0, hxw, hy0, hyh⟩ := hin
  have hy : y.toNat < g.length := by rw [hWF.1]; omega
  have hrow : (g.getD y.toNat []).length = c.gridWidth := hWF.2 y.toNat hy
  have hx : x.toNat < (g.getD y.toNat []).length := by rw [hrow]; omega
  have hxcast : ((x.toNat : Nat) : Int) = x := Int.toNat_of_nonneg hx0
  have hycast : ((y.toNat : Nat) : Int) = y := Int.toNat_of_nonneg hy0
  have hcell : cellAt g x y = (g.getD y.toNat []).getD x.toNat Cell.empty := by
    unfold cellAt
    rw [if_pos ⟨hx0, hy0⟩]
  have hres : cellAt (calculateNeighbors c g) x y =
      (if x.toNat < c.gridWidth ∧ y.toNat < c.gridHeight ∧
          ((g.getD y.toNat []).getD x.toNat Cell.empty).hasMine = false then
        { (g.getD y.toNat []).getD x.toNat Cell.empty with
            neighbors := mineNeighborCount c g x y }
       else (g.getD y.toNat []).getD x.toNat Cell.empty) := by
    unfold cellAt calculateNeighbors
    rw [if_pos ⟨hx0, hy0⟩, getD_mapWithIdx _ y.toNat g [] [] hy,
      getD_mapWithIdx _ x.toNat (g.getD y.toNat []) Cell.empty Cell.empty hx,
      hxcast, hycast]
  rw [hres, hcell]
  by_cases hm : ((g.getD y.toNat []).getD x.toNat Cell.empty).hasMine = false
  · rw [if_pos ⟨by omega, by omega, hm⟩, if_pos hm]
  · rw [if_neg (fun hc => hm hc.2.2), if_neg hm]

/-- Spec-side comparison count: mines among the up-to-8 proper
Chebyshev-adjacent cells, clipped at the board edges. -/
def adjMineCount8 (c : Config) (g : Grid) (x y : Int) : Nat :=
  (offsets8.filter (fun d =>
    decide (inBP c (x + d.1) (y + d.2)) && (cellAt g (x + d.1) (y + d.2)).hasMine)).length

theorem mineNeighborCount_eq_adj (c : Config) (g : Grid) (x y : Int)
    (hm : (cellAt g x y).hasMine = false) :
    mineNeighborCount c g x y = adjMineCount8 c g x y := by
  have h0 : (decide (inBP c (x + 0) (y + 0)) &&
      (cellAt g (x + 0) (y + 0)).hasMine) = false := by
    simp only [add_zero]
    rw [hm, Bool.and_false]
  unfold mineNeighborCount adjMineCount8 offsets9 offsets8
  simp only [List.filter_cons, List.filter_nil, h0]
  simp

/-- C8: after `calculateNeighbors`, every in-bounds non-mine cell stores
exactly the number of its up-to-8 grid-adjacent cells that carry a mine
(mine layout read from the input grid, which `calculateNeighbors` leaves
untouched). -/
theorem calculateNeighbors_correct (c : Config) (g : Grid) (x y : Int)
    (hWF : WFb c g = true) (hin : inBP c x y)
    (hm : (cellAt g x y).hasMine = false) :
    (cellAt (calculateNeighbors c g) x y).neighbors = adjMineCount8 c g x y := by
  rw [cellAt_calculateNeighbors c g x y ((WFb_iff c g).mp hWF) hin, if_pos hm]
  exact mineNeighborCount_eq_adj c g x y hm

/-- A 9×9 board with a single mine at `(1, 1)`. -/
def gridC8 : Grid :=
  (List.replicate 9 Cell.empty) ::
  (Cell.empty :: mineCell :: List.replicate 7 Cell.empty) ::
  List.replicate 7 (List.replicate 9 Cell.empty)

theorem calculateNeighbors_correct_witness :
    WFb (difficultySettings .easy) gridC8 = true ∧
    inBP (difficultySettings .easy) 0 0 ∧
    (cellAt gridC8 0 0).hasMine = false ∧
    (cellAt (calculateNeighbors (difficultySettings .easy) gridC8) 0 0).neighbors =
      adjMineCount8 (difficultySettings .easy) gridC8 0 0 :=
  ⟨by decide, by decide, rfl,
    calculateNeighbors_correct (difficultySettings .easy) gridC8 0 0
      (by decide) (by decide) rfl⟩

/-! ## Flood-fill: monotone grid evolution -/

/-- How one cell may evolve during a reveal pass: `hasMine`, `flagged`
and `neighbors` are untouched, `revealed` only ever turns on. -/
def cellLe (a b : Cell) : Prop :=
  b.hasMine = a.hasMine ∧ b.flagged = a.flagged ∧ b.neighbors = a.neighbors ∧
  (a.revealed = true → b.revealed = true)

theorem cellLe_refl (a : Cell) : cellLe a a := ⟨rfl, rfl, rfl, id⟩

theorem cellLe_trans {a b c : Cell} (h1 : cellLe a b) (h2 : cellLe b c) :
    cellLe a c :=
  ⟨h2.1.trans h1.1, h2.2.1.trans h1.2.1, h2.2.2.1.trans h1.2.2.1,
    fun h => h2.2.2.2 (h1.2.2.2 h)⟩

def rowLe (r r' : List Cell) : Prop := List.Forall₂ cellLe r r'

def gridLe (g g' : Grid) : Prop := List.Forall₂ rowLe g g'

theorem forall2_refl {α : Type} {r : α → α → Prop} (hr : ∀ a, r a a) :
    ∀ l : List α, List.Forall₂ r l l
  | [] => .nil
  | a :: t => .cons (hr a) (forall2_refl hr t)

theorem forall2_trans {α : Type} {r : α → α → Prop}
    (hr : ∀ a b c, r a b → r b c → r a c) :
    ∀ {l1 l2 l3 : List α}, List.Forall₂ r l1 l2 → List.Forall₂ r l2 l3 →
      List.Forall₂ r l1 l3 := by
  intro l1 l2 l3 h1 h2
  induction h1 generalizing l3 with
  | nil => cases h2; exact .nil
  | cons hab _ ih =>
    cases h2 with
    | cons hbc h2t => exact .cons (hr _ _ _ hab hbc) (ih h2t)

theorem forall2_length {α : Type} {r : α → α → Prop} :
    ∀ {l l' : List α}, List.Forall₂ r l l' → l.length = l'.length := by
  intro l l' h
  induction h with
  | nil => rfl
  | cons _ _ ih => simpa using ih

theorem forall2_getD {α : Type} {r : α → α → Prop} {d : α} (hd : r d d) :
    ∀ {l l' : List α}, List.Forall₂ r l l' → ∀ n, r (l.getD n d) (l'.getD n d) := by
  intro l l' h
  induction h with
  | nil => intro n; exact hd
  | cons hab _ ih =>
    intro n
    cases n with
    | zero => exact hab
    | succ m => simpa using ih m

theorem rowLe_refl (r : List Cell) : rowLe r r := forall2_refl cellLe_refl r

theorem gridLe_refl (g : Grid) : gridLe g g := forall2_refl rowLe_refl g

theorem rowLe_trans {a b c : List Cell} (h1 : rowLe a b) (h2 : rowLe b c) :
    rowLe a c :=
  @forall2_trans Cell cellLe (fun _ _ _ p q => cellLe_trans p q) a b c h1 h2

theorem gridLe_trans {a b c : Grid} (h1 : gridLe a b) (h2 : gridLe b c) :
    gridLe a c :=
  @forall2_trans (List Cell) rowLe (fun _ _ _ p q => rowLe_trans p q) a b c h1 h2

theorem gridLe_cellAt {g g' : Grid} (h : gridLe g g') (x y : Int) :
    cellLe (cellAt g x y) (cellAt g' x y) := by
  unfold cellAt
  split
  · exact forall2_getD (cellLe_refl _) (forall2_getD List.Forall₂.nil h y.toNat) x.toNat
  · exact cellLe_refl _

theorem gridLe_WF {c : Config} {g g' : Grid} (h : gridLe g g') (hWF : WFgrid c g) :
    WFgrid c g' := by
  refine ⟨(forall2_length h).symm.trans hWF.1, fun i hi => ?_⟩
  have hlen := forall2_length (forall2_getD List.Forall₂.nil h i)
  rw [← hlen]
  exact hWF.2 i (by rw [forall2_length h]; exact hi)

theorem rowLe_countP {r r' : List Cell} (h : rowLe r r') :
    r'.countP (fun cell => !cell.revealed) ≤ r.countP (fun cell => !cell.revealed) := by
  induction r generalizing r' with
  | nil =>
    cases h
    exact le_rfl
  | cons a t ih =>
    cases h with
    | cons hab ht =>
      rename_i b l2
      have hih := ih ht
      simp only [List.countP_cons]
      cases harev : a.revealed with
      | true =>
        have hbrev := hab.2.2.2 harev
        simp [harev, hbrev]
        omega
      | false =>
        cases hbrev : b.revealed with
        | true =>
          simp [harev, hbrev]
          omega
        | false =>
          simp [harev, hbrev]
          omega

theorem gridLe_unrevealedCount {g g' : Grid} (h : gridLe g g') :
    unrevealedCountG g' ≤ unrevealedCountG g := by
  unfold unrevealedCountG
  induction g generalizing g' with
  | nil =>
    cases h
    exact le_rfl
  | cons r t ih =>
    cases h with
    | cons hr ht =>
      simp only [List.map_cons, List.sum_cons]
      exact Nat.add_le_add (rowLe_countP hr) (ih ht)

theorem forall2_modifyList {α : Type} {r : α → α → Prop} (hrefl : ∀ a, r a a)
    (l : List α) (n : Nat) (f : α → α) (hf : ∀ a, r a (f a)) :
    List.Forall₂ r l (modifyList l n f) := by
  induction l generalizing n with
  | nil => exact .nil
  | cons a t ih =>
    cases n with
    | zero => exact .cons (hf a) (forall2_refl hrefl t)
    | succ m => exact .cons (hrefl a) (ih m)

theorem gridLe_setRevealed (g : Grid) (x y : Int) :
    gridLe g (setRevealed g x y) := by
  unfold setRevealed gridLe
  refine forall2_modifyList rowLe_refl g y.toNat _ (fun row => ?_)
  exact forall2_modifyList cellLe_refl row x.toNat _
    (fun cell => ⟨rfl, rfl, rfl, fun _ => rfl⟩)

theorem foldl_gridLe (step : Grid → Int × Int → Grid)
    (l : List (Int × Int)) (g : Grid)
    (hstep : ∀ acc d, d ∈ l → gridLe acc (step acc d)) :
    gridLe g (l.foldl step g) := by
  induction l generalizing g with
  | nil => exact gridLe_refl g
  | cons d t ih =>
    simp only [List.foldl_cons]
    exact gridLe_trans (hstep g d (List.mem_cons_self d t))
      (ih (step g d) (fun acc e he => hstep acc e (List.mem_cons_of_mem d he)))

theorem gridLe_revealCellFuel (c : Config) :
    ∀ (fuel : Nat) (g : Grid) (x y : Int), gridLe g (revealCellFuel c fuel g x y) := by
  intro fuel
  induction fuel with
  | zero => intro g x y; exact gridLe_refl g
  | succ n ih =>
    intro g x y
    simp only [revealCellFuel]
    by_cases hin : inBP c x y
    · rw [if_pos hin]
      by_cases hguard : (cellAt g x y).revealed = true ∨ (cellAt g x y).flagged = true
      · rw [if_pos hguard]
        exact gridLe_refl g
      · rw [if_neg hguard]
        by_cases hnb : (cellAt g x y).neighbors = 0
        · rw [if_pos hnb]
          exact gridLe_trans (gridLe_setRevealed g x y)
            (foldl_gridLe _ offsets9 _ (fun acc d _ => ih acc (x + d.1) (y + d.2)))
        · rw [if_neg hnb]
          exact gridLe_setRevealed g x y
    · rw [if_neg hin]
      exact gridLe_refl g

/-! ## Termination of the flood fill (fuel stabilisation) -/

theorem countP_modifyList {α : Type} (p : α → Bool) (l : List α) (n : Nat)
    (f : α → α) (d : α) (h : n < l.length)
    (hold : p (l.getD n d) = true) (hnew : p (f (l.getD n d)) = false) :
    (modifyList l n f).countP p + 1 = l.countP p := by
  induction l generalizing n with
  | nil => simp at h
  | cons a t ih =>
    cases n with
    | zero =>
      simp only [List.getD_cons_zero] at hold hnew
      simp [modifyList, List.countP_cons, hold, hnew]
    | succ m =>
      simp only [List.getD_cons_succ] at hold hnew
      simp only [modifyList, List.countP_cons]
      have := ih m (by simpa using h) hold hnew
      omega

theorem sum_map_modifyList {α : Type} (m : α → Nat) (l : List α) (n : Nat)
    (f : α → α) (d : α) (h : n < l.length)
    (hval : m (f (l.getD n d)) + 1 = m (l.getD n d)) :
    ((modifyList l n f).map m).sum + 1 = (l.map m).sum := by
  induction l generalizing n with
  | nil => simp at h
  | cons a t ih =>
    cases n with
    | zero =>
      simp only [List.getD_cons_zero] at hval
      simp only [modifyList, List.map_cons, List.sum_cons]
      omega
    | succ k =>
      simp only [List.getD_cons_succ] at hval
      simp only [modifyList, List.map_cons, List.sum_cons]
      have := ih k (by simpa using h) hval
      omega

theorem unrevealedCountG_setRevealed (g : Grid) (x y : Int)
    (hy : y.toNat < g.length) (hx : x.toNat < (g.getD y.toNat []).length)
    (hur : ((g.getD y.toNat []).getD x.toNat Cell.empty).revealed = false) :
    unrevealedCountG (setRevealed g x y) + 1 = unrevealedCountG g := by
  unfold unrevealedCountG setRevealed
  refine sum_map_modifyList _ g y.toNat _ [] hy ?_
  refine countP_modifyList _ _ x.toNat _ Cell.empty hx ?_ ?_
  · simp only [Bool.not_eq_true']
    exact hur
  · simp

theorem revealed_of_count_zero (c : Config) (g : Grid) (hWF : WFgrid c g)
    (h0 : unrevealedCountG g = 0) (x y : Int) (hin : inBP c x y) :
    (cellAt g x y).revealed = true := by
  obtain ⟨hx0, hxw, hy0, hyh⟩ := hin
  have hy : y.toNat < g.length := by rw [hWF.1]; omega
  have hx : x.toNat < (g.getD y.toNat []).length := by rw [hWF.2 y.toNat hy]; omega
  unfold unrevealedCountG at h0
  have hrow0 : (g.getD y.toNat []).countP (fun cell => !cell.revealed) = 0 := by
    have := (List.sum_eq_zero_iff).mp h0
    exact this _ (List.mem_map_of_mem _ (getD_mem g y.toNat [] hy))
  have hmem := getD_mem (g.getD y.toNat []) x.toNat Cell.empty hx
  have := List.countP_eq_zero.mp hrow0 _ hmem
  unfold cellAt
  rw [if_pos ⟨hx0, hy0⟩]
  simpa using this

/-- The member of `WFgrid` bookkeeping used at a guarded reveal site:
the cell really exists and the count drops by one. -/
theorem count_drop (c : Config) (g : Grid) (x y : Int) (hWF : WFgrid c g)
    (hin : inBP c x y) (hur : (cellAt g x y).revealed = false) :
    unrevealedCountG (setRevealed g x y) + 1 = unrevealedCountG g := by
  obtain ⟨hx0, hxw, hy0, hyh⟩ := hin
  have hy : y.toNat < g.length := by rw [hWF.1]; omega
  have hx : x.toNat < (g.getD y.toNat []).length := by rw [hWF.2 y.toNat hy]; omega
  refine unrevealedCountG_setRevealed g x y hy hx ?_
  unfold cellAt at hur
  rw [if_pos ⟨hx0, hy0⟩] at hur
  exact hur

/-- Fold step of the fuel-congruence argument, split off so that the
outer induction hypothesis can be supplied explicitly. -/
theorem revealFold_congr (c : Config) (m : Nat)
    (ih : ∀ (g : Grid) (x y : Int) (f1 f2 : Nat), WFgrid c g →
      unrevealedCountG g ≤ m → m + 1 ≤ f1 → m + 1 ≤ f2 →
      revealCellFuel c f1 g x y = revealCellFuel c f2 g x y)
    (x y : Int) :
    ∀ (l : List (Int × Int)) (g : Grid) (a b : Nat), WFgrid c g →
      unrevealedCountG g ≤ m → m + 1 ≤ a → m + 1 ≤ b →
      l.foldl (fun acc d => revealCellFuel c a acc (x + d.1) (y + d.2)) g =
      l.foldl (fun acc d => revealCellFuel c b acc (x + d.1) (y + d.2)) g := by
  intro l
  induction l with
  | nil => intro g a b _ _ _ _; rfl
  | cons d t iht =>
    intro g a b hWF hcnt ha hb
    simp only [List.foldl_cons]
    rw [ih g (x + d.1) (y + d.2) a b hWF hcnt ha hb]
    have hle := gridLe_revealCellFuel c b g (x + d.1) (y + d.2)
    exact iht _ a b (gridLe_WF hle hWF)
      (le_trans (gridLe_unrevealedCount hle) hcnt) ha hb

theorem revealCellFuel_congr (c : Config) :
    ∀ (n : Nat) (g : Grid) (x y : Int) (f1 f2 : Nat), WFgrid c g →
      unrevealedCountG g ≤ n → n + 1 ≤ f1 → n + 1 ≤ f2 →
      revealCellFuel c f1 g x y = revealCellFuel c f2 g x y := by
  intro n
  induction n with
  | zero =>
    intro g x y f1 f2 hWF hcnt h1 h2
    obtain ⟨a, rfl⟩ : ∃ a, f1 = a + 1 := ⟨f1 - 1, by omega⟩
    obtain ⟨b, rfl⟩ : ∃ b, f2 = b + 1 := ⟨f2 - 1, by omega⟩
    simp only [revealCellFuel]
    by_cases hin : inBP c x y
    · rw [if_pos hin, if_pos hin]
      have hrev : (cellAt g x y).revealed = true :=
        revealed_of_count_zero c g hWF (Nat.le_zero.mp hcnt) x y hin
      rw [if_pos (Or.inl hrev), if_pos (Or.inl hrev)]
    · rw [if_neg hin, if_neg hin]
  | succ m ih =>
    intro g x y f1 f2 hWF hcnt h1 h2
    obtain ⟨a, rfl⟩ : ∃ a, f1 = a + 1 := ⟨f1 - 1, by omega⟩
    obtain ⟨b, rfl⟩ : ∃ b, f2 = b + 1 := ⟨f2 - 1, by omega⟩
    simp only [revealCellFuel]
    by_cases hin : inBP c x y
    · rw [if_pos hin, if_pos hin]
      by_cases hguard : (cellAt g x y).revealed = true ∨ (cellAt g x y).flagged = true
      · rw [if_pos hguard, if_pos hguard]
      · rw [if_neg hguard, if_neg hguard]
        have hur : (cellAt g x y).revealed = false := by
          cases hrev : (cellAt g x y).revealed with
          | false => rfl
          | true => exact absurd (Or.inl hrev) hguard
        have hdrop := count_drop c g x y hWF hin hur
        have hWF1 : WFgrid c (setRevealed g x y) :=
          gridLe_WF (gridLe_setRevealed g x y) hWF
        by_cases hnb : (cellAt g x y).neighbors = 0
        · rw [if_pos hnb, if_pos hnb]
          exact revealFold_congr c m ih x y offsets9 (setRevealed g x y) a b hWF1
            (by omega) (by omega) (by omega)
        · rw [if_neg hnb, if_neg hnb]
    · rw [if_neg hin, if_neg hin]

/-- C6: the flood-fill recursion terminates on every well-formed board and
every coordinate: any fuel at least one more than the number of unrevealed
cells produces the stabilised result `revealCell` — in particular the
self-call at offset `(0, 0)` and all other neighbour calls bottom out,
because a cell already revealed (or flagged, or out of bounds) is a no-op
and each productive call strictly decreases the unrevealed count. -/
theorem revealCell_terminates (c : Config) (g : Grid) (x y : Int) (fuel : Nat)
    (hWF : WFb c g = true) (hfuel : unrevealedCountG g + 1 ≤ fuel) :
    revealCellFuel c fuel g x y = revealCell c g x y := by
  unfold revealCell
  exact revealCellFuel_congr c (unrevealedCountG g) g x y fuel
    (unrevealedCountG g + 1) ((WFb_iff c g).mp hWF) le_rfl hfuel le_rfl

theorem revealCell_terminates_witness :
    WFb (difficultySettings .easy) (freshGrid (difficultySettings .easy)) = true ∧
    unrevealedCountG (freshGrid (difficultySettings .easy)) + 1 ≤ 100 ∧
    revealCellFuel (difficultySettings .easy) 100
        (freshGrid (difficultySettings .easy)) 4 4 =
      revealCell (difficultySettings .easy) (freshGrid (difficultySettings .easy)) 4 4 :=
  ⟨by decide, by decide,
    revealCell_terminates (difficultySettings .easy)
      (freshGrid (difficultySettings .easy)) 4 4 100 (by decide) (by decide)⟩

/-! ## Flood-fill coverage: reachability and the zero-count component -/

theorem getD_of_le {α : Type} (l : List α) (n : Nat) (d : α) (h : l.length ≤ n) :
    l.getD n d = d := by
  induction l generalizing n with
  | nil => cases n <;> rfl
  | cons a t ih =>
    cases n with
    | zero => simp at h
    | succ m => simpa using ih m (by simpa using h)

theorem modifyList_of_le {α : Type} (l : List α) (n : Nat) (f : α → α)
    (h : l.length ≤ n) : modifyList l n f = l := by
  induction l generalizing n with
  | nil => rfl
  | cons a t ih =>
    cases n with
    | zero => simp at h
    | succ m => simpa [modifyList] using ih m (by simpa using h)

theorem cellAt_setRevealed_self {c : Config} {g : Grid} (hWF : WFgrid c g)
    {x y : Int} (hin : inBP c x y) :
    cellAt (setRevealed g x y) x y = { cellAt g x y with revealed := true } := by
  obtain ⟨hx0, hxw, hy0, hyh⟩ := hin
  have hy : y.toNat < g.length := by rw [hWF.1]; omega
  have hx : x.toNat < (g.getD y.toNat []).length := by rw [hWF.2 y.toNat hy]; omega
  unfold cellAt setRevealed
  rw [if_pos ⟨hx0, hy0⟩, if_pos ⟨hx0, hy0⟩]
  rw [getD_modifyList_eq g y.toNat _ [] hy]
  rw [getD_modifyList_eq _ x.toNat _ Cell.empty hx]

theorem revealed_after_setRevealed {g : Grid} {x y : Int}
    (a b : Int) (h : (cellAt (setRevealed g x y) a b).revealed = true) :
    (a.toNat = x.toNat ∧ b.toNat = y.toNat ∧ 0 ≤ a ∧ 0 ≤ b) ∨
    (cellAt g a b).revealed = true := by
  unfold cellAt setRevealed at h
  unfold cellAt
  by_cases hab : 0 ≤ a ∧ 0 ≤ b
  · rw [if_pos hab] at h ⊢
    by_cases hyy : y.toNat = b.toNat
    · by_cases hylen : y.toNat < g.length
      · rw [← hyy, getD_modifyList_eq g y.toNat _ [] hylen] at h
        by_cases hxx : x.toNat = a.toNat
        · exact Or.inl ⟨hxx.symm, hyy.symm, hab.1, hab.2⟩
        · rw [getD_modifyList_ne _ x.toNat a.toNat _ Cell.empty hxx, hyy] at h
          exact Or.inr h
      · rw [modifyList_of_le g y.toNat _ (by omega)] at h
        exact Or.inr h
    · rw [getD_modifyList_ne g y.toNat b.toNat _ [] hyy] at h
      exact Or.inr h
  · rw [if_neg hab] at h
    exact absurd h (by simp [Cell.empty])

theorem cellAt_of_all {p : Cell → Bool} {g : Grid}
    (hall : g.all (fun row => row.all p) = true) (hempty : p Cell.empty = true)
    (x y : Int) : p (cellAt g x y) = true := by
  unfold cellAt
  split
  · by_cases hy : y.toNat < g.length
    · have hrall := (List.all_eq_true.mp hall) _ (getD_mem g y.toNat [] hy)
      by_cases hx : x.toNat < (g.getD y.toNat []).length
      · exact (List.all_eq_true.mp hrall) _ (getD_mem _ x.toNat Cell.empty hx)
      · rw [getD_of_le _ x.toNat Cell.empty (by omega)]
        exact hempty
    · rw [getD_of_le g y.toNat [] (by omega)]
      simpa using hempty
  · exact hempty

/-- Executable hypothesis of C7: every cell of the board is unrevealed and
unflagged. -/
def hiddenAllB (g : Grid) : Bool :=
  g.all (fun row => row.all (fun cell => !cell.revealed && !cell.flagged))

theorem hiddenAll_cellAt {g : Grid} (h : hiddenAllB g = true) (x y : Int) :
    (cellAt g x y).revealed = false ∧ (cellAt g x y).flagged = false := by
  have := cellAt_of_all h (p := fun cell => !cell.revealed && !cell.flagged)
    (by simp [Cell.empty]) x y
  simpa [Bool.and_eq_true, Bool.not_eq_true'] using this

/-- Executable hypothesis of C7: every in-bounds non-mine cell stores the
count `calculateNeighbors` would compute for it. -/
def countsOkB (c : Config) (g : Grid) : Bool :=
  (List.range c.gridHeight).all (fun y =>
    (List.range c.gridWidth).all (fun x =>
      (cellAt g (x : Int) (y : Int)).hasMine ||
      ((cellAt g (x : Int) (y : Int)).neighbors ==
        mineNeighborCount c g (x : Int) (y : Int))))

theorem countsOk_at {c : Config} {g : Grid} (h : countsOkB c g = true)
    {x y : Int} (hin : inBP c x y) (hm : (cellAt g x y).hasMine = false) :
    (cellAt g x y).neighbors = mineNeighborCount c g x y := by
  obtain ⟨hx0, hxw, hy0, hyh⟩ := hin
  unfold countsOkB at h
  have hy := (List.all_eq_true.mp h) y.toNat (List.mem_range.mpr (by omega))
  have hx := (List.all_eq_true.mp hy) x.toNat (List.mem_range.mpr (by omega))
  rw [Int.toNat_of_nonneg hx0, Int.toNat_of_nonneg hy0] at hx
  rcases Bool.or_eq_true _ _ |>.mp hx with hmine | hcnt
  · exact absurd hmine (by simp [hm])
  · simpa using hcnt

/-- A zero cell: in bounds, no mine, stored count zero. -/
def zeroCellP (c : Config) (g : Grid) (x y : Int) : Prop :=
  inBP c x y ∧ (cellAt g x y).hasMine = false ∧ (cellAt g x y).neighbors = 0

instance (c : Config) (g : Grid) (x y : Int) : Decidable (zeroCellP c g x y) := by
  unfold zeroCellP
  infer_instance

theorem zeroCell_no_adj_mine {c : Config} {g : Grid} (hC : countsOkB c g = true)
    {px py : Int} (hz : zeroCellP c g px py) (d : Int × Int) (hd : d ∈ offsets9)
    (hin : inBP c (px + d.1) (py + d.2)) :
    (cellAt g (px + d.1) (py + d.2)).hasMine = false := by
  have hcnt := countsOk_at hC hz.1 hz.2.1
  rw [hz.2.2] at hcnt
  unfold mineNeighborCount at hcnt
  have hfil := List.length_eq_zero.mp hcnt.symm
  have hnot := List.filter_eq_nil.mp hfil d hd
  rw [Bool.and_eq_true, decide_eq_true_eq] at hnot
  cases hmlook : (cellAt g (px + d.1) (py + d.2)).hasMine with
  | false => rfl
  | true => exact absurd ⟨hin, hmlook⟩ hnot

/-- The set of positions the flood fill started at `(x0, y0)` can reach:
the start, plus any in-bounds cell one of the nine enumerated offsets away
from a reached cell whose stored count is zero. -/
inductive Reach (c : Config) (G : Grid) (x0 y0 : Int) : Int → Int → Prop where
  | base : inBP c x0 y0 → Reach c G x0 y0 x0 y0
  | step {px py : Int} (d : Int × Int) : Reach c G x0 y0 px py →
      (cellAt G px py).neighbors = 0 → d ∈ offsets9 →
      inBP c (px + d.1) (py + d.2) → Reach c G x0 y0 (px + d.1) (py + d.2)

/-- The connected component of zero cells containing the start, with
connectivity along the 8 proper Chebyshev directions (the claim's
component). -/
inductive ZeroConn (c : Config) (G : Grid) (x0 y0 : Int) : Int → Int → Prop where
  | refl : zeroCellP c G x0 y0 → ZeroConn c G x0 y0 x0 y0
  | step {px py : Int} (d : Int × Int) : ZeroConn c G x0 y0 px py → d ∈ offsets8 →
      zeroCellP c G (px + d.1) (py + d.2) → ZeroConn c G x0 y0 (px + d.1) (py + d.2)

/-- The claim's border: an in-bounds non-mine cell with nonzero stored
count that is Chebyshev-adjacent to the component. -/
def borderP (c : Config) (G : Grid) (x0 y0 a b : Int) : Prop :=
  inBP c a b ∧ (cellAt G a b).hasMine = false ∧ (cellAt G a b).neighbors ≠ 0 ∧
  ∃ px py : Int, ZeroConn c G x0 y0 px py ∧
    ∃ d ∈ offsets8, a = px + d.1 ∧ b = py + d.2

theorem zeroConn_zero {c : Config} {G : Grid} {x0 y0 a b : Int}
    (h : ZeroConn c G x0 y0 a b) : zeroCellP c G a b := by
  induction h with
  | refl hz => exact hz
  | step _ _ _ hz => exact hz

theorem offsets9_split {d : Int × Int} (hd : d ∈ offsets9) :
    d = (0, 0) ∨ d ∈ offsets8 := by
  simp only [offsets9, List.mem_cons, List.not_mem_nil, or_false] at hd
  rcases hd with rfl | rfl | rfl | rfl | rfl | rfl | rfl | rfl | rfl <;> decide

theorem offsets8_sub {d : Int × Int} (hd : d ∈ offsets8) : d ∈ offsets9 := by
  simp only [offsets8, List.mem_cons, List.not_mem_nil, or_false] at hd
  rcases hd with rfl | rfl | rfl | rfl | rfl | rfl | rfl | rfl <;> decide

theorem reach_to_component {c : Config} {G : Grid} {x0 y0 : Int}
    (hC : countsOkB c G = true) (hz0 : zeroCellP c G x0 y0) :
    ∀ {a b : Int}, Reach c G x0 y0 a b →
      ZeroConn c G x0 y0 a b ∨ borderP c G x0 y0 a b := by
  intro a b h
  induction h with
  | base _ => exact Or.inl (ZeroConn.refl hz0)
  | step d hr hnb hd hin ih =>
    rename_i px py
    have hpz : ZeroConn c G x0 y0 px py := by
      rcases ih with h | h
      · exact h
      · exact absurd hnb h.2.2.1
    have hpzero : zeroCellP c G px py := zeroConn_zero hpz
    rcases offsets9_split hd with h00 | h8
    · rw [h00]
      simpa using Or.inl hpz
    · have hmine : (cellAt G (px + d.1) (py + d.2)).hasMine = false :=
        zeroCell_no_adj_mine hC hpzero d hd hin
      by_cases hq : (cellAt G (px + d.1) (py + d.2)).neighbors = 0
      · exact Or.inl (ZeroConn.step d hpz h8 ⟨hin, hmine, hq⟩)
      · exact Or.inr ⟨hin, hmine, hq, px, py, hpz, d, h8, rfl, rfl⟩

theorem component_to_reach {c : Config} {G : Grid} {x0 y0 : Int} :
    ∀ {a b : Int}, ZeroConn c G x0 y0 a b → Reach c G x0 y0 a b := by
  intro a b h
  induction h with
  | refl hz => exact Reach.base hz.1
  | step d hconn h8 hq ih =>
    exact Reach.step d ih (zeroConn_zero hconn).2.2 (offsets8_sub h8) hq.1

theorem border_to_reach {c : Config} {G : Grid} {x0 y0 : Int}
    {a b : Int} (h : borderP c G x0 y0 a b) : Reach c G x0 y0 a b := by
  obtain ⟨hin, _, _, px, py, hconn, d, h8, ha, hb⟩ := h
  subst ha
  subst hb
  exact Reach.step d (component_to_reach hconn) (zeroConn_zero hconn).2.2
    (offsets8_sub h8) hin

theorem revealSound (c : Config) (G : Grid) (x0 y0 : Int) :
    ∀ (fuel : Nat) (g : Grid) (px py : Int),
      gridLe G g →
      (∀ a b : Int, (cellAt g a b).revealed = true →
        (cellAt G a b).revealed = true ∨ Reach c G x0 y0 a b) →
      (inBP c px py → Reach c G x0 y0 px py) →
      ∀ a b : Int, (cellAt (revealCellFuel c fuel g px py) a b).revealed = true →
        (cellAt G a b).revealed = true ∨ Reach c G x0 y0 a b := by
  intro fuel
  induction fuel with
  | zero => intro g px py _ hinv _; exact hinv
  | succ n ih =>
    intro g px py hgle hinv hcall
    simp only [revealCellFuel]
    by_cases hin : inBP c px py
    · rw [if_pos hin]
      by_cases hguard : (cellAt g px py).revealed = true ∨ (cellAt g px py).flagged = true
      · rw [if_pos hguard]
        exact hinv
      · rw [if_neg hguard]
        have hreach := hcall hin
        have hpx0 : 0 ≤ px := hin.1
        have hpy0 : 0 ≤ py := hin.2.2.1
        have hinv1 : ∀ a b : Int, (cellAt (setRevealed g px py) a b).revealed = true →
            (cellAt G a b).revealed = true ∨ Reach c G x0 y0 a b := by
          intro a b hr
          rcases revealed_after_setRevealed a b hr with ⟨hax, hby, ha0, hb0⟩ | hr'
          · have hax' : a = px := by omega
            have hby' : b = py := by omega
            rw [hax', hby']
            exact Or.inr hreach
          · exact hinv a b hr'
        by_cases hnb : (cellAt g px py).neighbors = 0
        · rw [if_pos hnb]
          have hnbG : (cellAt G px py).neighbors = 0 :=
            ((gridLe_cellAt hgle px py).2.2.1).symm.trans hnb
          have hgle1 : gridLe G (setRevealed g px py) :=
            gridLe_trans hgle (gridLe_setRevealed g px py)
          have hfold : ∀ (l : List (Int × Int)), (∀ e ∈ l, e ∈ offsets9) →
              ∀ (gg : Grid), gridLe G gg →
              (∀ a b : Int, (cellAt gg a b).revealed = true →
                (cellAt G a b).revealed = true ∨ Reach c G x0 y0 a b) →
              ∀ a b : Int,
                (cellAt (l.foldl (fun acc e =>
                  revealCellFuel c n acc (px + e.1) (py + e.2)) gg) a b).revealed = true →
                (cellAt G a b).revealed = true ∨ Reach c G x0 y0 a b := by
            intro l
            induction l with
            | nil => intro _ gg _ hinv2; exact hinv2
            | cons e t iht =>
              intro hsub gg hgle2 hinv2
              simp only [List.foldl_cons]
              refine iht (fun q hq => hsub q (List.mem_cons_of_mem e hq)) _ ?_ ?_
              · exact gridLe_trans hgle2 (gridLe_revealCellFuel c n gg _ _)
              · refine ih gg (px + e.1) (py + e.2) hgle2 hinv2 ?_
                intro hinq
                exact Reach.step e hreach hnbG (hsub e (List.mem_cons_self e t)) hinq
          exact hfold offsets9 (fun e he => he) (setRevealed g px py) hgle1 hinv1
        · rw [if_neg hnb]
          exact hinv1
    · rw [if_neg hin]
      exact hinv

theorem revealSat (c : Config) (G : Grid) (hWF : WFgrid c G)
    (hHid : ∀ a b : Int, (cellAt G a b).flagged = false) :
    ∀ (n : Nat) (g : Grid) (px py : Int) (fuel : Nat),
      gridLe G g → unrevealedCountG g ≤ n → n + 1 ≤ fuel →
      ((inBP c px py →
          (cellAt (revealCellFuel c fuel g px py) px py).revealed = true) ∧
       (∀ a b : Int, (cellAt (revealCellFuel c fuel g px py) a b).revealed = true →
         (cellAt g a b).revealed = true ∨
         ((cellAt G a b).neighbors = 0 →
           ∀ d ∈ offsets9, inBP c (a + d.1) (b + d.2) →
             (cellAt (revealCellFuel c fuel g px py) (a + d.1) (b + d.2)).revealed = true))) := by
  intro n
  induction n with
  | zero =>
    intro g px py fuel hgle hcnt hfuel
    obtain ⟨f, rfl⟩ : ∃ f', fuel = f' + 1 := ⟨fuel - 1, by omega⟩
    have hWFg : WFgrid c g := gridLe_WF hgle hWF
    simp only [revealCellFuel]
    by_cases hin : inBP c px py
    · have hrev : (cellAt g px py).revealed = true :=
        revealed_of_count_zero c g hWFg (by omega) px py hin
      rw [if_pos hin, if_pos (Or.inl hrev)]
      exact ⟨fun _ => hrev, fun a b h => Or.inl h⟩
    · rw [if_neg hin]
      exact ⟨fun h => absurd h hin, fun a b h => Or.inl h⟩
  | succ m ih =>
    intro g px py fuel hgle hcnt hfuel
    obtain ⟨f, rfl⟩ : ∃ f', fuel = f' + 1 := ⟨fuel - 1, by omega⟩
    have hf : m + 1 ≤ f := by omega
    have hWFg : WFgrid c g := gridLe_WF hgle hWF
    simp only [revealCellFuel]
    by_cases hin : inBP c px py
    · rw [if_pos hin]
      cases hrev : (cellAt g px py).revealed with
      | true =>
        rw [if_pos (Or.inl rfl)]
        exact ⟨fun _ => hrev, fun a b h => Or.inl h⟩
      | false =>
        have hflagg : (cellAt g px py).flagged = false :=
          ((gridLe_cellAt hgle px py).2.1).trans (hHid px py)
        rw [if_neg (by simp [hflagg])]
        have hpx0 : 0 ≤ px := hin.1
        have hpy0 : 0 ≤ py := hin.2.2.1
        have hself : cellAt (setRevealed g px py) px py =
            { cellAt g px py with revealed := true } :=
          cellAt_setRevealed_self hWFg hin
        have hdrop : unrevealedCountG (setRevealed g px py) + 1 = unrevealedCountG g :=
          count_drop c g px py hWFg hin hrev
        have hgle1 : gridLe G (setRevealed g px py) :=
          gridLe_trans hgle (gridLe_setRevealed g px py)
        by_cases hnb : (cellAt g px py).neighbors = 0
        · rw [if_pos hnb]
          have hfold : ∀ (l : List (Int × Int)) (gg : Grid),
              gridLe G gg → unrevealedCountG gg ≤ m →
              gridLe gg (l.foldl (fun acc d =>
                revealCellFuel c f acc (px + d.1) (py + d.2)) gg) ∧
              (∀ e ∈ l, inBP c (px + e.1) (py + e.2) →
                (cellAt (l.foldl (fun acc d =>
                  revealCellFuel c f acc (px + d.1) (py + d.2)) gg)
                  (px + e.1) (py + e.2)).revealed = true) ∧
              (∀ a b : Int, (cellAt (l.foldl (fun acc d =>
                  revealCellFuel c f acc (px + d.1) (py + d.2)) gg) a b).revealed = true →
                (cellAt gg a b).revealed = true ∨
                ((cellAt G a b).neighbors = 0 →
                  ∀ d ∈ offsets9, inBP c (a + d.1) (b + d.2) →
                    (cellAt (l.foldl (fun acc d =>
                      revealCellFuel c f acc (px + d.1) (py + d.2)) gg)
                      (a + d.1) (b + d.2)).revealed = true)) := by
            intro l
            induction l with
            | nil =>
              intro gg _ _
              exact ⟨gridLe_refl gg, by simp, fun a b h => Or.inl h⟩
            | cons e t iht =>
              intro gg hgleG hcnt2
              simp only [List.foldl_cons]
              have hr1le : gridLe gg (revealCellFuel c f gg (px + e.1) (py + e.2)) :=
                gridLe_revealCellFuel c f gg _ _
              have hr1G : gridLe G (revealCellFuel c f gg (px + e.1) (py + e.2)) :=
                gridLe_trans hgleG hr1le
              have hr1cnt :
                  unrevealedCountG (revealCellFuel c f gg (px + e.1) (py + e.2)) ≤ m :=
                le_trans (gridLe_unrevealedCount hr1le) hcnt2
              have hih1 := ih gg (px + e.1) (py + e.2) f hgleG hcnt2 hf
              obtain ⟨htail_le, htail_tar, htail_sat⟩ :=
                iht (revealCellFuel c f gg (px + e.1) (py + e.2)) hr1G hr1cnt
              refine ⟨gridLe_trans hr1le htail_le, ?_, ?_⟩
              · intro q hq hinq
                rcases List.mem_cons.mp hq with rfl | hqt
                · exact (gridLe_cellAt htail_le _ _).2.2.2 (hih1.1 hinq)
                · exact htail_tar q hqt hinq
              · intro a b hrev2
                rcases htail_sat a b hrev2 with hr1 | himp
                · rcases hih1.2 a b hr1 with hgg | himp1
                  · exact Or.inl hgg
                  · refine Or.inr (fun h0 d hd hinq => ?_)
                    exact (gridLe_cellAt htail_le _ _).2.2.2 (himp1 h0 d hd hinq)
                · exact Or.inr himp
          obtain ⟨hfle, hftar, hfsat⟩ :=
            hfold offsets9 (setRevealed g px py) hgle1 (by omega)
          constructor
          · intro _
            have hr : (cellAt (setRevealed g px py) px py).revealed = true := by
              rw [hself]
            exact (gridLe_cellAt hfle px py).2.2.2 hr
          · intro a b hrev2
            rcases hfsat a b hrev2 with h1 | himp
            · rcases revealed_after_setRevealed a b h1 with ⟨hax, hby, ha0, hb0⟩ | hg
              · have hax' : a = px := by omega
                have hby' : b = py := by omega
                subst hax'
                subst hby'
                exact Or.inr (fun _ d hd hinq => hftar d hd hinq)
              · exact Or.inl hg
            · exact Or.inr himp
        · rw [if_neg hnb]
          constructor
          · intro _
            rw [hself]
          · intro a b hrev2
            rcases revealed_after_setRevealed a b hrev2 with ⟨hax, hby, ha0, hb0⟩ | hg
            · have hax' : a = px := by omega
              have hby' : b = py := by omega
              subst hax'
              subst hby'
              refine Or.inr (fun h0 => ?_)
              exact absurd (((gridLe_cellAt hgle a b).2.2.1).trans h0) hnb
            · exact Or.inl hg
    · rw [if_neg hin]
      exact ⟨fun h => absurd h hin, fun a b h => Or.inl h⟩

theorem revealed_iff_reach (c : Config) (G : Grid) (x0 y0 : Int)
    (hWF : WFgrid c G)
    (hHid : ∀ a b : Int,
      (cellAt G a b).revealed = false ∧ (cellAt G a b).flagged = false) :
    ∀ a b : Int, (cellAt (revealCell c G x0 y0) a b).revealed = true ↔
      Reach c G x0 y0 a b := by
  have hflag : ∀ a b : Int, (cellAt G a b).flagged = false := fun a b => (hHid a b).2
  have hsat := revealSat c G hWF hflag (unrevealedCountG G)
  intro a b
  unfold revealCell
  constructor
  · intro h
    rcases revealSound c G x0 y0 (unrevealedCountG G + 1) G x0 y0 (gridLe_refl G)
        (fun p q hr => absurd hr (by simp [(hHid p q).1]))
        (fun hin => Reach.base hin) a b h with h1 | h2
    · exact absurd h1 (by simp [(hHid a b).1])
    · exact h2
  · intro h
    induction h with
    | base hin =>
      exact (hsat G x0 y0 (unrevealedCountG G + 1) (gridLe_refl G) le_rfl le_rfl).1 hin
    | step d hr hnb hd hin ihr =>
      rename_i px py
      rcases (hsat G x0 y0 (unrevealedCountG G + 1) (gridLe_refl G) le_rfl
          le_rfl).2 px py ihr with hold | himp
      · exact absurd hold (by simp [(hHid px py).1])
      · exact himp hnb d hd hin

/-- C7: on a well-formed board whose stored neighbour counts are correct
and on which nothing is revealed or flagged yet, revealing a zero-count
non-mine cell reveals exactly the connected zero-count component
containing it (8-directional connectivity) together with the
nonzero-count non-mine cells bordering that component, and nothing else. -/
theorem revealCell_coverage (c : Config) (G : Grid) (x0 y0 : Int)
    (hWF : WFb c G = true) (hHid : hiddenAllB G = true)
    (hCnt : countsOkB c G = true) (hz : zeroCellP c G x0 y0) :
    ∀ a b : Int, (cellAt (revealCell c G x0 y0) a b).revealed = true ↔
      (ZeroConn c G x0 y0 a b ∨ borderP c G x0 y0 a b) := by
  have hWF2 := (WFb_iff c G).mp hWF
  have hHid2 := fun a b => hiddenAll_cellAt hHid a b
  have hiff := revealed_iff_reach c G x0 y0 hWF2 hHid2
  intro a b
  rw [hiff a b]
  constructor
  · exact fun h => reach_to_component hCnt hz h
  · rintro (h | h)
    · exact component_to_reach h
    · exact border_to_reach h

theorem revealCell_coverage_witness :
    (WFb (difficultySettings .easy) (freshGrid (difficultySettings .easy)) = true ∧
     hiddenAllB (freshGrid (difficultySettings .easy)) = true ∧
     countsOkB (difficultySettings .easy) (freshGrid (difficultySettings .easy)) = true ∧
     zeroCellP (difficultySettings .easy) (freshGrid (difficultySettings .easy)) 1 1) ∧
    ∀ a b : Int,
      (cellAt (revealCell (difficultySettings .easy)
        (freshGrid (difficultySettings .easy)) 1 1) a b).revealed = true ↔
      (ZeroConn (difficultySettings .easy)
        (freshGrid (difficultySettings .easy)) 1 1 a b ∨
       borderP (difficultySettings .easy)
        (freshGrid (difficultySettings .easy)) 1 1 a b) :=
  ⟨⟨by decide, by decide, by decide, by decide⟩,
    revealCell_coverage (difficultySettings .easy)
      (freshGrid (difficultySettings .easy)) 1 1
      (by decide) (by decide) (by decide) (by decide)⟩

/-! ## Flag toggle: double application -/

theorem get?_modifyList {α : Type} (l : List α) (n : Nat) (f : α → α) :
    (modifyList l n f).get? n = (l.get? n).map f := by
  induction l generalizing n with
  | nil => cases n <;> rfl
  | cons a t ih =>
    cases n with
    | zero => rfl
    | succ m => simpa [modifyList] using ih m

theorem modifyList_modifyList {α : Type} (l : List α) (n : Nat) (f g : α → α) :
    modifyList (modifyList l n f) n g = modifyList l n (fun a => g (f a)) := by
  induction l generalizing n with
  | nil => rfl
  | cons a t ih =>
    cases n with
    | zero => rfl
    | succ m => simpa [modifyList] using ih m

theorem modifyList_congr_id {α : Type} (l : List α) (n : Nat) (f : α → α)
    (hf : ∀ a, f a = a) : modifyList l n f = l := by
  induction l generalizing n with
  | nil => rfl
  | cons a t ih =>
    cases n with
    | zero => simp [modifyList, hf a]
    | succ m => simpa [modifyList] using ih m

theorem toggleAt_toggleAt (g : Grid) (gx gy : Int) :
    toggleAt (toggleAt g gx gy) gx gy = g := by
  unfold toggleAt
  rw [modifyList_modifyList]
  refine modifyList_congr_id g gy.toNat _ (fun row => ?_)
  rw [modifyList_modifyList]
  exact modifyList_congr_id row gx.toNat _ (fun cell => by simp)

theorem cellAt?_toggleAt (g : Grid) (gx gy : Int) (cell : Cell)
    (h : cellAt? g gx gy = some cell) :
    cellAt? (toggleAt g gx gy) gx gy = some { cell with flagged := !cell.flagged } := by
  unfold cellAt? at h ⊢
  by_cases hab : 0 ≤ gx ∧ 0 ≤ gy
  · rw [if_pos hab] at h ⊢
    unfold toggleAt
    rw [get?_modifyList]
    cases hrow : g.get? gy.toNat with
    | none =>
      rw [hrow] at h
      exact absurd h (by simp)
    | some row =>
      rw [hrow] at h
      have h2 : row.get? gx.toNat = some cell := h
      simp only [Option.map_some']
      rw [get?_modifyList, h2]
      rfl
  · rw [if_neg hab] at h
    exact absurd h (by simp)

/-- One accepted flag toggle in a non-terminal, menu-closed, started
session: the cell's `flagged` bit flips and `checkWin` recomputes `won`. -/
theorem update_secondary_eq (s : GameState) (gx gy : Int) (cell : Cell)
    (hM : s.showingDifficultyMenu = false) (hGO : s.gameOver = false)
    (hW : s.won = false) (hF : s.firstClick = false)
    (hbx : 0 ≤ gx ∧ gx < (mainGridWidth : Int) ∧
      0 ≤ gy ∧ gy < (mainGridHeight : Int))
    (hcell : cellAt? s.grid gx gy = some cell) (hrev : cell.revealed = false) :
    update s (.secondaryAt gx gy) [] = some
      ⟨toggleAt s.grid gx gy, s.gameOver,
        checkWinFlag (difficultySettings s.difficulty) (toggleAt s.grid gx gy),
        s.difficulty, s.firstClick, s.showingDifficultyMenu⟩ := by
  unfold update
  rw [if_neg (by simp [hM]), if_neg (by simp [hGO, hW])]
  show (handleSecondary s gx gy).map _ = _
  unfold handleSecondary
  rw [if_pos hbx, hcell]
  show ((if cell.revealed = false then some { s with grid := toggleAt s.grid gx gy }
    else some s).map _) = _
  rw [if_pos hrev]
  simp only [Option.map_some']
  unfold checkWin
  rw [if_neg (by simp [hF])]
  rw [if_neg (by simp [hF])]

/-- C10 (amended): in a non-terminal session with the difficulty menu
closed and the first reveal already made (`firstClick = false`), toggling
the flag of an existing unrevealed cell twice, at coordinates accepted by
the flag handler's bounds check, restores the whole board — provided the
first toggle does not make `checkWin` report a win (if it does, the
session becomes terminal and the second toggle is rejected, so the flag
stays). -/
theorem flagToggle_involution (s : GameState) (gx gy : Int) (cell : Cell)
    (hM : s.showingDifficultyMenu = false) (hGO : s.gameOver = false)
    (hW : s.won = false) (hF : s.firstClick = false)
    (hbx : 0 ≤ gx ∧ gx < (mainGridWidth : Int) ∧
      0 ≤ gy ∧ gy < (mainGridHeight : Int))
    (hcell : cellAt? s.grid gx gy = some cell) (hrev : cell.revealed = false)
    (hnowin : checkWinFlag (difficultySettings s.difficulty)
      (toggleAt s.grid gx gy) = false) :
    ((update s (.secondaryAt gx gy) []).bind
      (fun t => update t (.secondaryAt gx gy) [])).map (fun t => t.grid) =
    some s.grid := by
  rw [update_secondary_eq s gx gy cell hM hGO hW hF hbx hcell hrev]
  rw [Option.some_bind]
  have h2 := update_secondary_eq
    ⟨toggleAt s.grid gx gy, s.gameOver,
      checkWinFlag (difficultySettings s.difficulty) (toggleAt s.grid gx gy),
      s.difficulty, s.firstClick, s.showingDifficultyMenu⟩
    gx gy { cell with flagged := !cell.flagged } hM hGO hnowin hF hbx
    (cellAt?_toggleAt s.grid gx gy cell hcell) hrev
  rw [h2]
  show some (toggleAt (toggleAt s.grid gx gy) gx gy) = some s.grid
  rw [toggleAt_toggleAt]

/-- A started, untouched Easy session used to instantiate the amended
flag-toggle involution. -/
def stateC10W : GameState :=
  ⟨freshGrid (difficultySettings .easy), false, false, .easy, false, false⟩

theorem flagToggle_involution_witness :
    (stateC10W.showingDifficultyMenu = false ∧ stateC10W.gameOver = false ∧
     stateC10W.won = false ∧ stateC10W.firstClick = false ∧
     cellAt? stateC10W.grid 2 3 = some Cell.empty ∧
     Cell.empty.revealed = false ∧
     checkWinFlag (difficultySettings stateC10W.difficulty)
       (toggleAt stateC10W.grid 2 3) = false) ∧
    ((update stateC10W (.secondaryAt 2 3) []).bind
      (fun t => update t (.secondaryAt 2 3) [])).map (fun t => t.grid) =
    some stateC10W.grid :=
  ⟨⟨rfl, rfl, rfl, rfl, by decide, rfl, by decide⟩,
    flagToggle_involution stateC10W 2 3 Cell.empty rfl rfl rfl rfl
      (by decide) (by decide) rfl (by decide)⟩
